import Mathlib

/-!
Shallow embedding of the convergence core in src/src/node.rs: content-addressed
edit operations (Node), their SHA-512/256 identifiers over a canonical JSON
encoding of (parent-or-sentinel, tick, payload), and single-operation
projection onto a text buffer.  Strings and buffers are modelled as lists of
bytes (UTF-8); machine words are Nat with explicit reduction mod 2^64.
-/

namespace NodeRs

/-! ## 64-bit word arithmetic for SHA-512 -/

def add64 (a b : Nat) : Nat := (a + b) % 2 ^ 64

def not64 (a : Nat) : Nat := (2 ^ 64 - 1) ^^^ a

def rotr (x n : Nat) : Nat := ((x >>> n) ||| (x <<< (64 - n))) % 2 ^ 64

def bSig0 (x : Nat) : Nat := (rotr x 28) ^^^ (rotr x 34) ^^^ (rotr x 39)

def bSig1 (x : Nat) : Nat := (rotr x 14) ^^^ (rotr x 18) ^^^ (rotr x 41)

def sSig0 (x : Nat) : Nat := (rotr x 1) ^^^ (rotr x 8) ^^^ (x >>> 7)

def sSig1 (x : Nat) : Nat := (rotr x 19) ^^^ (rotr x 61) ^^^ (x >>> 6)

def ch (x y z : Nat) : Nat := (x &&& y) ^^^ ((not64 x) &&& z)

def maj (x y z : Nat) : Nat := (x &&& y) ^^^ (x &&& z) ^^^ (y &&& z)

/-! ## SHA-512 round constants, derived as in FIPS 180-4: the first 64 bits of
the fractional parts of the cube roots of the first 80 primes. -/

def cbrtSearch (n : Nat) : Nat → Nat → Nat → Nat
  | 0, lo, _ => lo
  | fuel + 1, lo, hi =>
    if lo + 1 ≥ hi then lo
    else
      let mid := (lo + hi) / 2
      if mid ^ 3 ≤ n then cbrtSearch n fuel mid hi else cbrtSearch n fuel lo mid

def icbrt (n : Nat) : Nat := cbrtSearch n 256 0 (n + 1)

def primes80 : List Nat :=
  [2, 3, 5, 7, 11, 13, 17, 19, 23, 29, 31, 37, 41, 43, 47, 53, 59, 61, 67, 71,
   73, 79, 83, 89, 97, 101, 103, 107, 109, 113, 127, 131, 137, 139, 149, 151,
   157, 163, 167, 173, 179, 181, 191, 193, 197, 199, 211, 223, 227, 229, 233,
   239, 241, 251, 257, 263, 269, 271, 277, 281, 283, 293, 307, 311, 313, 317,
   331, 337, 347, 349, 353, 359, 367, 373, 379, 383, 389, 397, 401, 409]

def K : List Nat := primes80.map (fun p => (icbrt (p <<< 192)) % 2 ^ 64)

/-! ## SHA-512/256 core -/

structure Digest where
  a : Nat
  b : Nat
  c : Nat
  d : Nat
  e : Nat
  f : Nat
  g : Nat
  h : Nat

/-- Initial hash value of SHA-512/256 (FIPS 180-4 section 5.3.6.2),
as used by the Sha512Trunc256 hasher in node.rs. -/
def IV : Digest :=
  { a := 0x22312194FC2BF72C, b := 0x9F555FA3C84C64C2,
    c := 0x2393B86B6F53B151, d := 0x963877195940EABD,
    e := 0x96283EE2A88EFFE3, f := 0xBE5E1E2553863992,
    g := 0x2B0199FC2C85B8AA, h := 0x0EB72DDC81C52CA2 }

def extendSchedule : Nat → List Nat → List Nat
  | 0, rev => rev
  | n + 1, rev =>
    let w := add64 (add64 (sSig1 (rev.getD 1 0)) (rev.getD 6 0))
                   (add64 (sSig0 (rev.getD 14 0)) (rev.getD 15 0))
    extendSchedule n (w :: rev)

def schedule (block : List Nat) : List Nat :=
  (extendSchedule 64 block.reverse).reverse

def shaRound (st : Digest) (kw : Nat × Nat) : Digest :=
  let t1 := add64 st.h (add64 (bSig1 st.e) (add64 (ch st.e st.f st.g) (add64 kw.1 kw.2)))
  let t2 := add64 (bSig0 st.a) (maj st.a st.b st.c)
  { a := add64 t1 t2, b := st.a, c := st.b, d := st.c,
    e := add64 st.d t1, f := st.e, g := st.f, h := st.g }

def compress (st : Digest) (block : List Nat) : Digest :=
  let fin := (K.zip (schedule block)).foldl shaRound st
  { a := add64 st.a fin.a, b := add64 st.b fin.b,
    c := add64 st.c fin.c, d := add64 st.d fin.d,
    e := add64 st.e fin.e, f := add64 st.f fin.f,
    g := add64 st.g fin.g, h := add64 st.h fin.h }

def bytesToWords : List Nat → List Nat
  | b0 :: b1 :: b2 :: b3 :: b4 :: b5 :: b6 :: b7 :: rest =>
    ((b0 <<< 56) ||| (b1 <<< 48) ||| (b2 <<< 40) ||| (b3 <<< 32) |||
     (b4 <<< 24) ||| (b5 <<< 16) ||| (b6 <<< 8) ||| b7) :: bytesToWords rest
  | _ => []

def toBlocksAux : Nat → List Nat → List (List Nat)
  | 0, _ => []
  | fuel + 1, bytes =>
    if bytes = [] then []
    else bytesToWords (bytes.take 128) :: toBlocksAux fuel (bytes.drop 128)

def toBlocks (bytes : List Nat) : List (List Nat) :=
  toBlocksAux (bytes.length + 1) bytes

def lenBytes (n : Nat) : List Nat :=
  (List.range 16).map (fun i => (n >>> (8 * (15 - i))) &&& 255)

def pad (msg : List Nat) : List Nat :=
  msg ++ [128] ++ List.replicate ((128 - ((msg.length + 17) % 128)) % 128) 0 ++
    lenBytes (8 * msg.length)

def wordsToBytes (ws : List Nat) : List Nat :=
  ws.flatMap (fun w => (List.range 8).map (fun i => (w >>> (8 * (7 - i))) &&& 255))

/-- SHA-512/256 of a byte sequence: SHA-512 with the SHA-512/256 initial value,
truncated to the first 32 bytes of the digest. -/
def sha512t256 (msg : List Nat) : List Nat :=
  let fin := (toBlocks (pad msg)).foldl compress IV
  wordsToBytes [fin.a, fin.b, fin.c, fin.d]

/-! ## UTF-8 and canonical JSON encoding (serde_json), over byte lists -/

/-- UTF-8 encoding of a single character. -/
def utf8Encode (c : Char) : List Nat :=
  let n := c.toNat
  if n < 0x80 then [n]
  else if n < 0x800 then [0xC0 ||| (n >>> 6), 0x80 ||| (n &&& 0x3F)]
  else if n < 0x10000 then
    [0xE0 ||| (n >>> 12), 0x80 ||| ((n >>> 6) &&& 0x3F), 0x80 ||| (n &&& 0x3F)]
  else
    [0xF0 ||| (n >>> 18), 0x80 ||| ((n >>> 12) &&& 0x3F),
     0x80 ||| ((n >>> 6) &&& 0x3F), 0x80 ||| (n &&& 0x3F)]

/-- The UTF-8 bytes of a Lean string literal, used to write Rust string values. -/
def strBytes (s : String) : List Nat := s.data.flatMap utf8Encode

/-- Big-endian decimal digit bytes of a positive number, with explicit fuel so
that the definition is structurally recursive. -/
def decRep : Nat → Nat → List Nat
  | 0, _ => []
  | fuel + 1, n => if n = 0 then [] else decRep fuel (n / 10) ++ [48 + n % 10]

/-- serde_json rendering of an unsigned integer: plain decimal digits. -/
def jsonNat (n : Nat) : List Nat :=
  if n = 0 then [48] else decRep n n

def hexDigit (n : Nat) : Nat := if n < 10 then 48 + n else 87 + n

/-- serde_json escaping of one byte of a JSON string body. -/
def escapeByte (b : Nat) : List Nat :=
  if b = 34 then [92, 34]
  else if b = 92 then [92, 92]
  else if b = 8 then [92, 98]
  else if b = 9 then [92, 116]
  else if b = 10 then [92, 110]
  else if b = 12 then [92, 102]
  else if b = 13 then [92, 114]
  else if b < 32 then [92, 117, 48, 48, hexDigit (b / 16), hexDigit (b % 16)]
  else [b]

/-- serde_json rendering of a string value from its UTF-8 bytes. -/
def jsonString (bytes : List Nat) : List Nat :=
  [34] ++ bytes.flatMap escapeByte ++ [34]


/-- Does the byte pattern sit at the front of the haystack. -/
def matchesAt (hay pat : List Nat) : Bool :=
  hay.take pat.length = pat

/-- Scan for the first index where the pattern occurs, Rust str::find style. -/
def strFindAux (pat : List Nat) : List Nat → Nat → Option Nat
  | [], _ => none
  | b :: rest, i =>
    if matchesAt (b :: rest) pat then some i else strFindAux pat rest (i + 1)

/-- Rust str::find(char) over the UTF-8 bytes of a string: the byte index of
the first occurrence of the character. -/
def strFind (body : List Nat) (c : Char) : Option Nat :=
  strFindAux (utf8Encode c) body 0

/-! ## The data model of node.rs -/

/-- The Action enum of node.rs; the Insert body (a Rust String) is its UTF-8
byte sequence. -/
inductive Action where
  | Null : Action
  | Insert (offset : Nat) (body : List Nat) : Action
  | Delete (offset : Nat) : Action
deriving DecidableEq

/-- NodeId(pub [u8; 32]): a 32-byte identifier. -/
structure NodeId where
  bytes : List Nat
deriving DecidableEq

structure Node where
  tick : Nat
  parent : Option NodeId
  action : Action
deriving DecidableEq

/-- static NULL: the 32-byte all-zero sentinel hashed in place of a missing
parent. -/
def NULL : List Nat := List.replicate 32 0

/-- serde_json rendering of an Action value (externally tagged enum, fields in
declaration order). -/
def jsonAction : Action → List Nat
  | Action.Null => strBytes "\"Null\""
  | Action.Insert offset body =>
    strBytes "\x7b\"Insert\":\x7b\"offset\":" ++ jsonNat offset ++
      strBytes ",\"body\":" ++ jsonString body ++ strBytes "\x7d\x7d"
  | Action.Delete offset =>
    strBytes "\x7b\"Delete\":\x7b\"offset\":" ++ jsonNat offset ++ strBytes "\x7d\x7d"

namespace Node

/-- Node::new. -/
def new (tick : Nat) (parent : Option NodeId) (action : Action) : Node :=
  { tick := tick, parent := parent, action := action }

/-- Node::root. -/
def root (tick : Nat) : Node :=
  { tick := tick, parent := none, action := Action.Null }

/-- The exact byte sequence Node::node_id feeds to the hasher: the parent
identifier bytes (or the NULL sentinel), then the serde_json bytes of the
tick, then the serde_json bytes of the action. -/
def nodeIdInput (n : Node) : List Nat :=
  (match n.parent with
   | some p => p.bytes
   | none => NULL) ++ jsonNat n.tick ++ jsonAction n.action

/-- Node::node_id: SHA-512/256 over the hash input. -/
def node_id (n : Node) : NodeId :=
  { bytes := sha512t256 n.nodeIdInput }

end Node

/-- hex::encode, lowercase hex of a byte sequence. -/
def hexEncode (bytes : List Nat) : List Nat :=
  bytes.flatMap (fun b => [hexDigit (b / 16), hexDigit (b % 16)])

/-! ## The concrete chain of the golden-hash regression test (mod test::test1) -/

def node0 : Node := Node.root 0

def node1 : Node :=
  Node.new 1 (some node0.node_id) (Action.Insert 0 (strBytes "H"))

def node2 : Node :=
  Node.new 2 (some node1.node_id) (Action.Insert 0 (strBytes "e"))

/-! ## Cursor, Document clock, and the Operation factory -/

/-- Modelled from the spec: the Cursor (Position Reference) type from
src/src/cursor.rs is not under src/; per section 4.4 it is the immutable pair
of the identifier of an existing Operation and a byte offset. -/
structure Cursor where
  node_id : NodeId
  offset : Nat

/-- Modelled from the spec: the Document (History) type from
src/src/document.rs is not under src/; per sections 3 and 4.3 it owns the
process-wide monotonic logical clock that mints ticks.  Only the clock is
needed by the Operation factory. -/
structure Document where
  clock : Nat

/-- Modelled from the spec: Document::increment_clock returns the
pre-increment value of the clock and then advances it by one (section 4.3);
the mutation is made explicit by returning the updated Document. -/
def Document.increment_clock (d : Document) : Nat × Document :=
  (d.clock, { clock := d.clock + 1 })

namespace Node

/-- Node::insert: draws the next tick from the owning Document's clock and
builds an Insert operation anchored at the cursor.  The clock mutation
performed through cursor.doc() is made explicit by threading the Document. -/
def insert (cursor : Cursor) (doc : Document) (body : List Nat) : Node × Document :=
  let (tick, doc2) := doc.increment_clock
  ({ tick := tick,
     action := Action.Insert cursor.offset body,
     parent := some cursor.node_id }, doc2)

/-- Node::delete: like insert but with a Delete payload. -/
def delete (cursor : Cursor) (doc : Document) : Node × Document :=
  let (tick, doc2) := doc.increment_clock
  ({ tick := tick,
     action := Action.Delete cursor.offset,
     parent := some cursor.node_id }, doc2)

/-- Node::find: for an Insert node, body.find(c) from Rust std, the byte index
of the first occurrence of the character in the body; None otherwise. -/
def find (n : Node) (c : Char) : Option Nat :=
  match n.action with
  | Action.Insert _ body => strFind body c
  | _ => none

end Node

/-! ## The buffer and single-operation projection -/

/-- Modelled from the spec: MutStr (src/src/util/mutstr.rs) is not under src/;
per sections 1 and 4.5 it is an abstract mutable sequence of characters with
byte-offset insert and remove, where an offset past the end is clamped
(insert appends), never indexed out of bounds.  insert_str splices the given
bytes at the (clamped) offset. -/
def MutStr.insert_str (buf : List Nat) (offset : Nat) (s : List Nat) : List Nat :=
  buf.take offset ++ s ++ buf.drop offset

/-- Modelled from the spec: MutStr::remove removes exactly one unit at the
offset, with the same clamping bounds policy (sections 4.5 and 7); on an empty
buffer there is no unit to remove. -/
def MutStr.remove (buf : List Nat) (offset : Nat) : List Nat :=
  buf.take (min offset (buf.length - 1)) ++ buf.drop (min offset (buf.length - 1) + 1)

/-- Node::project: applies the node's action to the buffer and returns the
signed length delta.  The mutation of the MutStr buffer is made explicit by
returning the new buffer alongside the returned isize. -/
def Node.project (n : Node) (buf : List Nat) (limit : Option Nat) : List Nat × Int :=
  match n.action with
  | Action.Null => (buf, 0)
  | Action.Insert offset body =>
    let slice :=
      match limit with
      | some l => body.take (min body.length l)
      | none => body
    (MutStr.insert_str buf offset slice, (slice.length : Int))
  | Action.Delete offset => (MutStr.remove buf offset, -1)

/-- The truncation of an Insert body by an optional limit, as computed by the
slice expression in Node::project. -/
def truncated (limit : Option Nat) (body : List Nat) : List Nat :=
  match limit with
  | some l => body.take (min body.length l)
  | none => body

/-! ## Supporting lemmas -/

lemma decRep_eq_digits : ∀ fuel n, n ≤ fuel →
    decRep fuel n = ((Nat.digits 10 n).reverse).map (fun d => 48 + d) := by
  intro fuel
  induction fuel with
  | zero =>
    intro n hn
    interval_cases n
    simp [decRep]
  | succ f ih =>
    intro n hn
    by_cases h0 : n = 0
    · subst h0; simp [decRep]
    · have hdiv : n / 10 ≤ f := by
        have hlt : n / 10 < n := Nat.div_lt_self (Nat.pos_of_ne_zero h0) (by norm_num)
        omega
      have hdig : Nat.digits 10 n = n % 10 :: Nat.digits 10 (n / 10) :=
        Nat.digits_def' (by norm_num) (Nat.pos_of_ne_zero h0)
      simp only [decRep, if_neg h0, ih (n / 10) hdiv, hdig, List.reverse_cons,
        List.map_append, List.map_cons, List.map_nil]

lemma jsonNat_pos_eq (m : Nat) (hm : m ≠ 0) :
    jsonNat m = ((Nat.digits 10 m).reverse).map (fun d => 48 + d) := by
  simp only [jsonNat, if_neg hm]
  exact decRep_eq_digits m m le_rfl

lemma digits10_injective (m n : Nat) (h : Nat.digits 10 m = Nat.digits 10 n) : m = n := by
  have hm := Nat.ofDigits_digits 10 m
  have hn := Nat.ofDigits_digits 10 n
  rw [← hm, ← hn, h]

lemma jsonNat_eq_zero_code (n : Nat) (h : jsonNat n = [48]) : n = 0 := by
  by_cases hn : n = 0
  · exact hn
  rw [jsonNat_pos_eq n hn] at h
  have hdig : Nat.digits 10 n = [0] := by
    rcases hd : (Nat.digits 10 n).reverse with _ | ⟨d, rest⟩
    · rw [hd] at h; simp at h
    · rw [hd] at h
      rcases rest with _ | ⟨d2, rest2⟩
      · simp at h
        have : (Nat.digits 10 n).reverse = [0] := by rw [hd, h]
        have := congrArg List.reverse this
        simpa using this
      · exfalso
        have := congrArg List.length h
        simp at this
  have : n = Nat.ofDigits 10 [0] := by rw [← hdig, Nat.ofDigits_digits]
  simpa [Nat.ofDigits] using this

lemma jsonNat_injective (m n : Nat) (h : jsonNat m = jsonNat n) : m = n := by
  by_cases hm : m = 0 <;> by_cases hn : n = 0
  · omega
  · subst hm
    have : jsonNat n = [48] := by rw [← h]; rfl
    exact (jsonNat_eq_zero_code n this).symm
  · subst hn
    have : jsonNat m = [48] := by rw [h]; rfl
    exact jsonNat_eq_zero_code m this
  · rw [jsonNat_pos_eq m hm, jsonNat_pos_eq n hn] at h
    have h2 : (Nat.digits 10 m).reverse = (Nat.digits 10 n).reverse :=
      List.map_injective_iff.mpr (fun a b hab => by omega) h
    exact digits10_injective m n (List.reverse_injective h2)

lemma jsonNat_ne_nil (n : Nat) : jsonNat n ≠ [] := by
  by_cases hn : n = 0
  · simp [jsonNat, hn]
  · obtain ⟨f, rfl⟩ := Nat.exists_eq_succ_of_ne_zero hn
    simp [jsonNat, decRep]

/-! ## The claims -/

/-- C1: identifier computation is deterministic.  In the embedding
Node::node_id is a pure function of the (tick, parent, action) record, so
computing it twice on the same triple, and in particular on root(0), yields
identical 32-byte results. -/
theorem claim1_node_id_deterministic :
    (∀ tick parent action,
      Node.node_id (Node.new tick parent action) = Node.node_id (Node.new tick parent action)) ∧
    Node.node_id (Node.root 0) = Node.node_id (Node.root 0) :=
  ⟨fun _ _ _ => rfl, rfl⟩

set_option maxRecDepth 1000000 in
/-- C2: the tick is part of the hash input, so two Operations with the same
parent and the same payload but different ticks feed different byte sequences
to the SHA-512/256 hasher; on the concrete pair root(0) and root(1) the
resulting Identifiers themselves are different. -/
theorem claim2_tick_in_hash_input (parent : Option NodeId) (a : Action)
    (t1 t2 : Nat) (h : t1 ≠ t2) :
    (Node.new t1 parent a).nodeIdInput ≠ (Node.new t2 parent a).nodeIdInput ∧
    Node.node_id (Node.root 0) ≠ Node.node_id (Node.root 1) := by
  constructor
  · intro heq
    simp only [Node.new, Node.nodeIdInput] at heq
    have h1 := List.append_cancel_right heq
    have h2 := List.append_cancel_left h1
    exact h (jsonNat_injective t1 t2 h2)
  · decide

theorem claim2_witness :
    (Node.new 0 none Action.Null).nodeIdInput ≠ (Node.new 1 none Action.Null).nodeIdInput ∧
    Node.node_id (Node.root 0) ≠ Node.node_id (Node.root 1) :=
  claim2_tick_in_hash_input none Action.Null 0 1 (by decide)

set_option maxRecDepth 1000000 in
/-- C3: golden-hash regression.  For the chain root(0), then Insert "H" at
offset 0 with tick 1 and the root identifier as parent, then Insert "e" at
offset 0 with tick 2 and the second node's identifier as parent, the final
node's identifier hex-encodes to the recorded 32-byte value of test::test1. -/
theorem claim3_golden_hash :
    hexEncode (Node.node_id node2).bytes =
      strBytes "37dbcb6c5f48e99e4530ab2b4b76731abacdca9a3e93dba49690cdbbd69d90b1" := by
  decide

/-- C6: sentinel normalization.  With no parent the hash input begins with the
32-byte all-zero sentinel; with a parent it begins with the parent
identifier's raw bytes; in both cases the hash input is nonempty, hence
differs from hashing nothing. -/
theorem claim6_sentinel_normalization (n : Node) :
    (n.parent = none → ∃ rest, n.nodeIdInput = NULL ++ rest) ∧
    (∀ p, n.parent = some p → ∃ rest, n.nodeIdInput = p.bytes ++ rest) ∧
    n.nodeIdInput ≠ [] := by
  refine ⟨?_, ?_, ?_⟩
  · intro h
    exact ⟨jsonNat n.tick ++ jsonAction n.action, by simp [Node.nodeIdInput, h]⟩
  · intro p h
    exact ⟨jsonNat n.tick ++ jsonAction n.action, by simp [Node.nodeIdInput, h]⟩
  · intro h
    simp only [Node.nodeIdInput, List.append_eq_nil] at h
    exact jsonNat_ne_nil n.tick h.1.2

theorem claim6_witness :
    (∃ rest, (Node.root 0).nodeIdInput = NULL ++ rest) ∧
    (∃ rest, node1.nodeIdInput = (Node.node_id node0).bytes ++ rest) ∧
    (Node.root 0).nodeIdInput ≠ [] :=
  ⟨(claim6_sentinel_normalization (Node.root 0)).1 rfl,
   (claim6_sentinel_normalization node1).2.1 (Node.node_id node0) rfl,
   (claim6_sentinel_normalization (Node.root 0)).2.2⟩

/-- C7: constructor contracts.  root(tick) has no parent and a Null payload;
insert(cursor, text) parents to the cursor's identifier with an Insert payload
at the cursor's offset and draws its tick from the owning clock, advancing it;
delete(cursor) is the same with a Delete payload. -/
theorem claim7_constructor_contracts (tick : Nat) (cursor : Cursor)
    (doc : Document) (body : List Nat) :
    (Node.root tick).parent = none ∧
    (Node.root tick).action = Action.Null ∧
    (Node.insert cursor doc body).1.parent = some cursor.node_id ∧
    (Node.insert cursor doc body).1.action = Action.Insert cursor.offset body ∧
    (Node.insert cursor doc body).1.tick = doc.clock ∧
    (Node.insert cursor doc body).2.clock = doc.clock + 1 ∧
    (Node.delete cursor doc).1.parent = some cursor.node_id ∧
    (Node.delete cursor doc).1.action = Action.Delete cursor.offset ∧
    (Node.delete cursor doc).1.tick = doc.clock ∧
    (Node.delete cursor doc).2.clock = doc.clock + 1 :=
  ⟨rfl, rfl, rfl, rfl, rfl, rfl, rfl, rfl, rfl, rfl⟩

lemma project_insert (buf : List Nat) (limit : Option Nat) (n : Node)
    (offset : Nat) (body : List Nat) (hact : n.action = Action.Insert offset body) :
    n.project buf limit =
      (MutStr.insert_str buf offset (truncated limit body),
       ((truncated limit body).length : Int)) := by
  cases limit <;> simp [Node.project, hact, truncated]

/-- C4: out-of-range offsets never cause an out-of-bounds access.  An Insert
whose offset exceeds the buffer length appends the (possibly truncated) body;
a Delete removes exactly the one unit at its offset when in bounds, and is
clamped to the last unit when the offset is past the end. -/
theorem claim4_offset_clamping (buf : List Nat) (limit : Option Nat) (n : Node) :
    (∀ offset body, n.action = Action.Insert offset body → buf.length < offset →
      (n.project buf limit).1 = buf ++ truncated limit body) ∧
    (∀ offset, n.action = Action.Delete offset → offset < buf.length →
      (n.project buf limit).1 = buf.take offset ++ buf.drop (offset + 1)) ∧
    (∀ offset, n.action = Action.Delete offset → buf.length ≤ offset →
      (n.project buf limit).1 = buf.take (buf.length - 1)) := by
  refine ⟨?_, ?_, ?_⟩
  · intro offset body hact hoff
    rw [project_insert buf limit n offset body hact]
    simp only [MutStr.insert_str]
    rw [List.take_of_length_le (le_of_lt hoff), List.drop_eq_nil_of_le (le_of_lt hoff)]
    simp
  · intro offset hact hlt
    simp only [Node.project, hact, MutStr.remove]
    rw [Nat.min_eq_left (by omega)]
  · intro offset hact hge
    simp only [Node.project, hact, MutStr.remove]
    rw [Nat.min_eq_right (by omega), List.drop_eq_nil_of_le (by omega)]
    simp

theorem claim4_witness :
    ((Node.new 0 none (Action.Insert 5 (strBytes "c"))).project (strBytes "ab") none).1 =
      strBytes "ab" ++ truncated none (strBytes "c") ∧
    ((Node.new 0 none (Action.Delete 1)).project (strBytes "abc") none).1 =
      (strBytes "abc").take 1 ++ (strBytes "abc").drop (1 + 1) ∧
    ((Node.new 0 none (Action.Delete 9)).project (strBytes "abc") none).1 =
      (strBytes "abc").take ((strBytes "abc").length - 1) :=
  ⟨(claim4_offset_clamping (strBytes "ab") none _).1 5 (strBytes "c") rfl (by decide),
   (claim4_offset_clamping (strBytes "abc") none _).2.1 1 rfl (by decide),
   (claim4_offset_clamping (strBytes "abc") none _).2.2 9 rfl (by decide)⟩

/-- C5: the incremental projection delta.  project returns 0 for Null, -1 for
Delete, the full body length for an Insert with no limit, and the body length
truncated to the limit for an Insert with a limit. -/
theorem claim5_projection_delta (buf : List Nat) (limit : Option Nat) (n : Node) :
    (n.action = Action.Null → (n.project buf limit).2 = 0) ∧
    (∀ offset, n.action = Action.Delete offset → (n.project buf limit).2 = -1) ∧
    (∀ offset body, n.action = Action.Insert offset body →
      (n.project buf none).2 = (body.length : Int)) ∧
    (∀ offset body l, n.action = Action.Insert offset body →
      (n.project buf (some l)).2 = ((min body.length l : Nat) : Int)) := by
  refine ⟨?_, ?_, ?_, ?_⟩
  · intro hact; simp [Node.project, hact]
  · intro offset hact; simp [Node.project, hact]
  · intro offset body hact; simp [Node.project, hact]
  · intro offset body l hact
    simp [Node.project, hact, List.length_take]

theorem claim5_witness :
    ((Node.root 0).project (strBytes "ab") none).2 = 0 ∧
    ((Node.new 0 none (Action.Delete 1)).project (strBytes "ab") none).2 = -1 ∧
    ((Node.new 0 none (Action.Insert 0 (strBytes "hi"))).project (strBytes "ab") none).2 =
      ((strBytes "hi").length : Int) ∧
    ((Node.new 0 none (Action.Insert 0 (strBytes "hi"))).project (strBytes "ab") (some 1)).2 =
      ((min (strBytes "hi").length 1 : Nat) : Int) :=
  ⟨(claim5_projection_delta (strBytes "ab") none (Node.root 0)).1 rfl,
   (claim5_projection_delta (strBytes "ab") none _).2.1 1 rfl,
   (claim5_projection_delta (strBytes "ab") none _).2.2.1 0 (strBytes "hi") rfl,
   (claim5_projection_delta (strBytes "ab") none _).2.2.2 0 (strBytes "hi") 1 rfl⟩

/-- C9: truncation bound.  The slice index used by project for an Insert with
a limit is min(body length, limit), so the slice never reaches past the end of
the body, and a limit at least the body length (or no limit) splices the whole
body. -/
theorem claim9_truncation_bound (buf body : List Nat) (offset l : Nat) (n : Node)
    (hact : n.action = Action.Insert offset body) :
    (n.project buf (some l)).1 =
      MutStr.insert_str buf offset (body.take (min body.length l)) ∧
    min body.length l ≤ body.length ∧
    (body.length ≤ l → (n.project buf (some l)).1 = MutStr.insert_str buf offset body) ∧
    (n.project buf none).1 = MutStr.insert_str buf offset body := by
  refine ⟨?_, Nat.min_le_left _ _, ?_, ?_⟩
  · rw [project_insert buf (some l) n offset body hact]; rfl
  · intro hle
    rw [project_insert buf (some l) n offset body hact]
    simp [truncated, Nat.min_eq_left hle]
  · rw [project_insert buf none n offset body hact]
    simp [truncated]

theorem claim9_witness :
    ((Node.new 0 none (Action.Insert 0 (strBytes "hi"))).project [] (some 7)).1 =
      MutStr.insert_str [] 0 ((strBytes "hi").take (min (strBytes "hi").length 7)) ∧
    min (strBytes "hi").length 7 ≤ (strBytes "hi").length ∧
    ((strBytes "hi").length ≤ 7 →
      ((Node.new 0 none (Action.Insert 0 (strBytes "hi"))).project [] (some 7)).1 =
        MutStr.insert_str [] 0 (strBytes "hi")) ∧
    ((Node.new 0 none (Action.Insert 0 (strBytes "hi"))).project [] none).1 =
      MutStr.insert_str [] 0 (strBytes "hi") :=
  claim9_truncation_bound [] (strBytes "hi") 0 7 _ rfl

/-- C8: projection frame and length consistency.  Null leaves the buffer
unchanged; an in-bounds Insert keeps the content before the offset and shifts
the content at or after the offset right by the spliced length; an in-bounds
Delete removes exactly the unit at the offset; in each case the new length is
the old length plus the returned delta. -/
theorem claim8_projection_frame (buf : List Nat) (limit : Option Nat) (n : Node) :
    (n.action = Action.Null →
      (n.project buf limit).1 = buf ∧
      ((n.project buf limit).1.length : Int) = buf.length + (n.project buf limit).2) ∧
    (∀ offset body, n.action = Action.Insert offset body → offset ≤ buf.length →
      (n.project buf limit).1 = buf.take offset ++ truncated limit body ++ buf.drop offset ∧
      (n.project buf limit).1.take offset = buf.take offset ∧
      (n.project buf limit).1.drop (offset + (truncated limit body).length) = buf.drop offset ∧
      ((n.project buf limit).1.length : Int) = buf.length + (n.project buf limit).2) ∧
    (∀ offset, n.action = Action.Delete offset → offset < buf.length →
      (n.project buf limit).1 = buf.take offset ++ buf.drop (offset + 1) ∧
      ((n.project buf limit).1.length : Int) = buf.length + (n.project buf limit).2) := by
  refine ⟨?_, ?_, ?_⟩
  · intro hact
    constructor
    · simp [Node.project, hact]
    · simp [Node.project, hact]
  · intro offset body hact hoff
    rw [project_insert buf limit n offset body hact]
    have htake : (buf.take offset).length = offset := by
      simp [List.length_take, Nat.min_eq_left hoff]
    refine ⟨rfl, ?_, ?_, ?_⟩
    · simp only [MutStr.insert_str]
      rw [List.append_assoc, List.take_left' htake]
    · simp only [MutStr.insert_str]
      have hlen : (buf.take offset ++ truncated limit body).length =
          offset + (truncated limit body).length := by
        simp [List.length_append, htake]
      rw [List.drop_left' hlen]
    · simp only [MutStr.insert_str, List.length_append, htake, List.length_drop]
      push_cast
      omega
  · intro offset hact hlt
    have heq : (n.project buf limit).1 = buf.take offset ++ buf.drop (offset + 1) :=
      (claim4_offset_clamping buf limit n).2.1 offset hact hlt
    refine ⟨heq, ?_⟩
    have hdelta : (n.project buf limit).2 = -1 :=
      (claim5_projection_delta buf limit n).2.1 offset hact
    rw [heq, hdelta]
    simp only [List.length_append, List.length_take, List.length_drop]
    push_cast
    omega

theorem claim8_witness :
    (((Node.root 0).project (strBytes "ab") none).1 = strBytes "ab" ∧
      (((Node.root 0).project (strBytes "ab") none).1.length : Int) =
        (strBytes "ab").length + ((Node.root 0).project (strBytes "ab") none).2) ∧
    ((Node.new 0 none (Action.Insert 1 (strBytes "xy"))).project (strBytes "ab") none).1 =
      (strBytes "ab").take 1 ++ truncated none (strBytes "xy") ++ (strBytes "ab").drop 1 ∧
    ((Node.new 0 none (Action.Delete 1)).project (strBytes "abc") none).1 =
      (strBytes "abc").take 1 ++ (strBytes "abc").drop (1 + 1) :=
  ⟨(claim8_projection_frame (strBytes "ab") none (Node.root 0)).1 rfl,
   ((claim8_projection_frame (strBytes "ab") none _).2.1 1 (strBytes "xy") rfl (by decide)).1,
   ((claim8_projection_frame (strBytes "abc") none _).2.2 1 rfl (by decide)).1⟩

lemma utf8Encode_ne_nil (c : Char) : utf8Encode c ≠ [] := by
  by_cases h1 : c.toNat < 128
  · simp [utf8Encode, h1]
  · by_cases h2 : c.toNat < 2048 <;> by_cases h3 : c.toNat < 65536 <;>
      simp [utf8Encode, h1, h2, h3]

lemma matchesAt_nil (pat : List Nat) (hpat : pat ≠ []) : matchesAt [] pat = false := by
  simp only [matchesAt, List.take_nil]
  simp only [decide_eq_false_iff_not]
  exact fun h => hpat h.symm

lemma strFindAux_some (pat : List Nat) : ∀ (body : List Nat) (i j : Nat),
    strFindAux pat body i = some j →
    ∃ k, j = i + k ∧ matchesAt (body.drop k) pat = true ∧
      ∀ m < k, matchesAt (body.drop m) pat = false := by
  intro body
  induction body with
  | nil => intro i j h; simp [strFindAux] at h
  | cons b rest ih =>
    intro i j h
    by_cases hm : matchesAt (b :: rest) pat = true
    · rw [strFindAux, if_pos hm] at h
      injection h with hij
      refine ⟨0, by omega, by simpa using hm, ?_⟩
      intro m hm2
      exact absurd hm2 (Nat.not_lt_zero m)
    · rw [strFindAux, if_neg hm] at h
      obtain ⟨k, hk1, hk2, hk3⟩ := ih (i + 1) j h
      refine ⟨k + 1, by omega, by simpa using hk2, ?_⟩
      intro m hlt
      cases m with
      | zero => simpa using Bool.not_eq_true _ |>.mp hm
      | succ m2 =>
        have := hk3 m2 (by omega)
        simpa using this

lemma strFindAux_complete (pat : List Nat) (hpat : pat ≠ []) :
    ∀ (body : List Nat) (i k : Nat),
    matchesAt (body.drop k) pat = true →
    ∃ j, strFindAux pat body i = some j ∧ j ≤ i + k := by
  intro body
  induction body with
  | nil =>
    intro i k h
    rw [List.drop_nil, matchesAt_nil pat hpat] at h
    exact absurd h (by simp)
  | cons b rest ih =>
    intro i k h
    by_cases hm : matchesAt (b :: rest) pat = true
    · exact ⟨i, by rw [strFindAux, if_pos hm], by omega⟩
    · cases k with
      | zero => rw [List.drop_zero] at h; exact absurd h hm
      | succ k2 =>
        have h2 : matchesAt (rest.drop k2) pat = true := by simpa using h
        obtain ⟨j, hj1, hj2⟩ := ih (i + 1) k2 h2
        exact ⟨j, by rw [strFindAux, if_neg hm]; exact hj1, by omega⟩

/-- C10: find semantics.  find returns None on Null and Delete nodes; on an
Insert node it returns some index iff the character's UTF-8 bytes occur in the
body, the returned index is the byte index of the first occurrence within the
body alone, and the node's offset field does not contribute. -/
theorem claim10_find_semantics (n : Node) (c : Char) :
    (n.action = Action.Null → n.find c = none) ∧
    (∀ offset, n.action = Action.Delete offset → n.find c = none) ∧
    (∀ offset body, n.action = Action.Insert offset body →
      ((n.find c ≠ none ↔ ∃ k, matchesAt (body.drop k) (utf8Encode c) = true) ∧
       ∀ i, n.find c = some i ↔
         (matchesAt (body.drop i) (utf8Encode c) = true ∧
          ∀ j < i, matchesAt (body.drop j) (utf8Encode c) = false))) ∧
    (∀ tick parent offset offset2 body,
      (Node.new tick parent (Action.Insert offset body)).find c =
        (Node.new tick parent (Action.Insert offset2 body)).find c) := by
  have hiff : ∀ body i, strFindAux (utf8Encode c) body 0 = some i ↔
      (matchesAt (body.drop i) (utf8Encode c) = true ∧
       ∀ j < i, matchesAt (body.drop j) (utf8Encode c) = false) := by
    intro body i
    constructor
    · intro h
      obtain ⟨k, hk1, hk2, hk3⟩ := strFindAux_some (utf8Encode c) body 0 i h
      have : k = i := by omega
      subst this
      exact ⟨hk2, hk3⟩
    · rintro ⟨hmatch, hmin⟩
      obtain ⟨j, hj1, hj2⟩ :=
        strFindAux_complete (utf8Encode c) (utf8Encode_ne_nil c) body 0 i hmatch
      obtain ⟨k, hk1, hk2, hk3⟩ := strFindAux_some (utf8Encode c) body 0 j hj1
      have hkj : j = k := by omega
      subst hkj
      have : ¬ j < i := by
        intro hlt
        have := hmin j hlt
        rw [hk2] at this
        simp at this
      have : j = i := by omega
      subst this
      exact hj1
  refine ⟨?_, ?_, ?_, ?_⟩
  · intro hact; simp [Node.find, hact]
  · intro offset hact; simp [Node.find, hact]
  · intro offset body hact
    constructor
    · constructor
      · intro h
        obtain ⟨j, hj⟩ := Option.ne_none_iff_exists.mp h
        obtain ⟨k, hk1, hk2, hk3⟩ :=
          strFindAux_some (utf8Encode c) body 0 j (by simpa [Node.find, hact, strFind] using hj.symm)
        exact ⟨k, hk2⟩
      · rintro ⟨k, hk⟩
        obtain ⟨j, hj1, hj2⟩ :=
          strFindAux_complete (utf8Encode c) (utf8Encode_ne_nil c) body 0 k hk
        simp [Node.find, hact, strFind, hj1]
    · intro i
      have := hiff body i
      simpa [Node.find, hact, strFind] using this
  · intro tick parent offset offset2 body
    rfl

theorem claim10_witness :
    (Node.root 0).find 'a' = none ∧
    (Node.new 0 none (Action.Delete 1)).find 'a' = none ∧
    (Node.new 0 none (Action.Insert 3 (strBytes "hello"))).find 'l' = some 2 ∧
    (Node.new 0 none (Action.Insert 3 (strBytes "hello"))).find 'l' =
      (Node.new 0 none (Action.Insert 9 (strBytes "hello"))).find 'l' :=
  ⟨(claim10_find_semantics (Node.root 0) 'a').1 rfl,
   (claim10_find_semantics (Node.new 0 none (Action.Delete 1)) 'a').2.1 1 rfl,
   (((claim10_find_semantics (Node.new 0 none (Action.Insert 3 (strBytes "hello"))) 'l').2.2.1
      3 (strBytes "hello") rfl).2 2).mpr (by decide),
   (claim10_find_semantics (Node.new 0 none (Action.Insert 3 (strBytes "hello"))) 'l').2.2.2
      0 none 3 9 (strBytes "hello")⟩

end NodeRs
